import Mathlib

/-!
Shallow embedding of the recursive merge engine of `src/mergedata.py`
(`_extend`, `_replace`, `mergedata`), together with theorems checking the
specification's statements about it.

Python values handled by the engine are modelled by the recursive `Value`
type: scalars (null, booleans, integers, strings), sequences (lists and
tuples, distinguished by an `isTuple` flag since the code preserves
tuple-ness through `_extend` and `_replace`), and mappings (Python dicts,
modelled as insertion-ordered association lists with string keys; updating
an existing key keeps its position, a new key is appended at the end,
exactly as Python dict assignment behaves).

Python exceptions are modelled with `Except`: the explicit
`raise ValueError(...)` in `_extend` becomes `MergeErr.typeMismatch`
(carrying the two conflicting values, as the exception arguments do), and
the `TypeError` that Python's duck typing raises inside `_replace` when
`key in left` / `left[key] = ...` is applied to a non-dict `left` becomes
`MergeErr.typeError`.
-/

/-- Value trees: the Python values the merge engine operates on. -/
inductive Value where
  | null : Value
  | bool : Bool → Value
  | int : Int → Value
  | str : String → Value
  | seq : Bool → List Value → Value
  | map : List (String × Value) → Value
deriving Repr

/-- Entry lists of a Python dict: insertion-ordered key/value pairs. -/
abbrev Assoc := List (String × Value)

namespace Value

mutual
/-- Structural equality of values, modelling Python `==` on these trees. -/
def beq : Value → Value → Bool
  | .null, .null => true
  | .bool a, .bool b => a == b
  | .int a, .int b => a == b
  | .str a, .str b => a == b
  | .seq s xs, .seq t ys => s == t && beqList xs ys
  | .map a, .map b => beqEntries a b
  | _, _ => false

/-- Structural equality of value lists. -/
def beqList : List Value → List Value → Bool
  | [], [] => true
  | x :: xs, y :: ys => beq x y && beqList xs ys
  | _, _ => false

/-- Structural equality of dict entry lists. -/
def beqEntries : Assoc → Assoc → Bool
  | [], [] => true
  | (k, v) :: xs, (l, w) :: ys => k == l && beq v w && beqEntries xs ys
  | _, _ => false
end

instance : BEq Value := ⟨beq⟩

mutual
/-- Soundness of `beq`: it only identifies equal values. -/
def beq_eq : ∀ a b : Value, beq a b = true → a = b
  | .null, .null, _ => rfl
  | .bool a, .bool b, h => by
      simp only [beq, beq_iff_eq] at h; simp [h]
  | .int a, .int b, h => by
      simp only [beq, beq_iff_eq] at h; simp [h]
  | .str a, .str b, h => by
      simp only [beq, beq_iff_eq] at h; simp [h]
  | .seq s xs, .seq t ys, h => by
      simp only [beq, Bool.and_eq_true, beq_iff_eq] at h
      simp [h.1, beqList_eq xs ys h.2]
  | .map a, .map b, h => by
      simp [beqEntries_eq a b h]

/-- Soundness of `beqList`. -/
def beqList_eq : ∀ xs ys : List Value, beqList xs ys = true → xs = ys
  | [], [], _ => rfl
  | x :: xs, y :: ys, h => by
      simp only [beqList, Bool.and_eq_true] at h
      simp [beq_eq x y h.1, beqList_eq xs ys h.2]

/-- Soundness of `beqEntries`. -/
def beqEntries_eq : ∀ xs ys : Assoc, beqEntries xs ys = true → xs = ys
  | [], [], _ => rfl
  | (k, v) :: xs, (l, w) :: ys, h => by
      simp only [beqEntries, Bool.and_eq_true, beq_iff_eq] at h
      simp [h.1.1, beq_eq v w h.1.2, beqEntries_eq xs ys h.2]
end

mutual
/-- Reflexivity of `beq`. -/
def beq_refl : ∀ a : Value, beq a a = true
  | .null => rfl
  | .bool a => by simp [beq]
  | .int a => by simp [beq]
  | .str a => by simp [beq]
  | .seq s xs => by simp [beq, beqList_refl xs]
  | .map a => by simp [beq, beqEntries_refl a]

/-- Reflexivity of `beqList`. -/
def beqList_refl : ∀ xs : List Value, beqList xs xs = true
  | [] => rfl
  | x :: xs => by simp [beqList, beq_refl x, beqList_refl xs]

/-- Reflexivity of `beqEntries`. -/
def beqEntries_refl : ∀ xs : Assoc, beqEntries xs xs = true
  | [] => rfl
  | (k, v) :: xs => by simp [beqEntries, beq_refl v, beqEntries_refl xs]
end

instance : LawfulBEq Value where
  eq_of_beq h := beq_eq _ _ h
  rfl := beq_refl _

instance : DecidableEq Value := fun a b =>
  decidable_of_iff (beq a b = true) ⟨beq_eq a b, fun h => h ▸ beq_refl a⟩

/-- Shape test: is this value a Python dict? -/
def isMap : Value → Bool
  | .map _ => true
  | _ => false

/-- Shape test: is this value a Python list or tuple? -/
def isSeq : Value → Bool
  | .seq _ _ => true
  | _ => false

/-- Shape test: is this value a bare scalar (null, bool, number, string)? -/
def isScalar : Value → Bool
  | .seq _ _ => false
  | .map _ => false
  | _ => true

/-- Python truthiness of a value, as used by `if not right` in `mergedata`:
`None`, `False`, `0`, the empty string, and empty containers are falsy. -/
def isTruthy : Value → Bool
  | .null => false
  | .bool b => b
  | .int n => n != 0
  | .str s => !s.isEmpty
  | .seq _ xs => !xs.isEmpty
  | .map es => !es.isEmpty

end Value

/-- Errors a merge can raise. `typeMismatch` is the `ValueError` raised by
`_extend` for a dict/non-dict conflict (it carries the two conflicting
values, as the Python exception arguments do); `typeError` is the Python
`TypeError` raised inside `_replace` by `key in left` or item assignment
when `left` is not a dict. -/
inductive MergeErr where
  | typeMismatch (left right : Value)
  | typeError
deriving Repr, DecidableEq

deriving instance DecidableEq for Except

/-- Dict lookup, modelling Python `left[key]` on a dict: the value of the
first entry with the given key, if any. -/
def assocGet (m : Assoc) (k : String) : Option Value :=
  match m with
  | [] => none
  | (l, v) :: rest => if l == k then some v else assocGet rest k

/-- Dict membership, modelling Python `key in left` on a dict. -/
def containsKey (m : Assoc) (k : String) : Bool :=
  m.any (fun p => p.1 == k)

/-- Dict assignment `m[k] = v`, modelling Python semantics: an existing key
keeps its position and gets the new value, a new key is appended. -/
def assocUpdate (m : Assoc) (k : String) (v : Value) : Assoc :=
  if containsKey m k then
    m.map (fun p => if p.1 == k then (k, v) else p)
  else m ++ [(k, v)]

/-- Appending one value to a sequence being extended, modelling the body of
the `_extend` sequence branch: the value is appended unless `deduplicate`
is set and an equal element is already present in the accumulated result. -/
def seqExtendOne (merged : List Value) (v : Value) (deduplicate : Bool) : List Value :=
  if deduplicate && merged.contains v then merged else merged ++ [v]

/-- Appending each element of `right` in order to a sequence being
extended, modelling the `for val in right` loop of `_extend`. -/
def seqExtendAll (merged : List Value) (right : List Value) (deduplicate : Bool) : List Value :=
  match right with
  | [] => merged
  | v :: vs => seqExtendAll (seqExtendOne merged v deduplicate) vs deduplicate

mutual
/-- The Extend merge `_extend(left, right, deduplicate=...)` from
`src/mergedata.py`. Branches, in source order: if `left` is a list or
tuple, elements of `right` (or `right` itself when it is not a list or
tuple) are appended subject to deduplication, and `left`'s tuple-ness is
restored on the result; else if `left` is a dict: a dict `right` is merged
entry-wise, a `None` `right` returns `left` unchanged, any other `right`
raises `ValueError`; else `right` is returned. -/
def extend : Value → Value → Bool → Except MergeErr Value
  | .seq t xs, .seq _ ys, d => .ok (.seq t (seqExtendAll xs ys d))
  | .seq t xs, r, d => .ok (.seq t (seqExtendOne xs r d))
  | .map les, .map res, d => Value.map <$> extendEntries les les res d
  | .map les, .null, _ => .ok (.map les)
  | .map les, r, _ => .error (.typeMismatch (.map les) r)
  | _, r, _ => .ok r

/-- The `for key in right.keys()` loop of `_extend`'s dict/dict branch.
`orig` is the original `left` dict (the loop tests `key in left`), `m` is
the accumulating `merged` dict that starts as `left.copy()`. The source
reads `merged[key]` after testing `key in left`; since `merged` agrees
with `left` on every key of `left` (a dict iterates each of its keys once),
that read is `left[key]`, i.e. `assocGet orig k` here. -/
def extendEntries (orig m : Assoc) : Assoc → Bool → Except MergeErr Assoc
  | [], _ => .ok m
  | (k, rv) :: rest, d =>
    match assocGet orig k with
    | some mv =>
      match extend mv rv d with
      | .ok v => extendEntries orig (assocUpdate m k v) rest d
      | .error e => .error e
    | none => extendEntries orig (m ++ [(k, rv)]) rest d
end

mutual
/-- The Replace merge `_replace(left, right)` from `src/mergedata.py`.
Branches, in source order: if `right` is a dict, its entries are written
into `left` — which requires `left` to support `key in left` and
`left[key] = ...`; a non-dict `left` makes the first iteration raise a
Python `TypeError`, so a non-dict `left` succeeds only when `right` has no
entries — else a list or tuple `right` is returned as a shallow copy, else
`right` is returned verbatim. -/
def replace : Value → Value → Except MergeErr Value
  | left, .map res =>
    match left with
    | .map les => Value.map <$> replaceEntries les les res
    | l => if res.isEmpty then .ok l else .error .typeError
  | _, .seq t ys => .ok (.seq t ys)
  | _, r => .ok r

/-- The `for key, val in right.items()` loop of `_replace`'s dict branch.
`orig` is the `left` dict as given, `m` is the accumulated state of `left`
under the loop's in-place writes. The loop tests `key in left` against the
mutated `left`, but a dict `right` presents each key once, so earlier
writes never affect the test for a later key and the test equals
`assocGet orig k` here. A new key installs `copy.deepcopy(val)`, which is
value-identical to `val`. -/
def replaceEntries (orig m : Assoc) : Assoc → Except MergeErr Assoc
  | [] => .ok m
  | (k, rv) :: rest =>
    match assocGet orig k with
    | some mv =>
      match replace mv rv with
      | .ok v => replaceEntries orig (assocUpdate m k v) rest
      | .error e => .error e
    | none => replaceEntries orig (m ++ [(k, rv)]) rest
end

/-- The empty value `data[0].__class__()` that `mergedata` starts its fold
from: `dict()` for a dict, `list()` / `tuple()` for a list / tuple, and
the zero value of the scalar class otherwise (`NoneType()` is `None`,
`bool()` is `False`, `int()` is `0`, `str()` is the empty string). -/
def emptyLike : Value → Value
  | .null => .null
  | .bool _ => .bool false
  | .int _ => .int 0
  | .str _ => .str ""
  | .seq t _ => .seq t []
  | .map _ => .map []

/-- One iteration of `mergedata`'s fold: a falsy `right` is skipped
(`if not right: continue`), otherwise the accumulator becomes
`_replace(left, right)` or `_extend(left, right, deduplicate=True)`
according to `override`. An error aborts the merge (a raised exception
propagates past the remaining iterations unchanged). -/
def mergeStep (override : Bool) (acc : Except MergeErr Value) (right : Value) :
    Except MergeErr Value :=
  match acc with
  | .error e => .error e
  | .ok left =>
    if right.isTruthy then
      if override then replace left right else extend left right true
    else .ok left

/-- The entry point `mergedata(*data, override=False)` from
`src/mergedata.py`: with no arguments it returns `{}`; otherwise it folds
every item (the first included) through `mergeStep`, starting from
`data[0].__class__()`. -/
def mergedata (data : List Value) (override : Bool := false) : Except MergeErr Value :=
  match data with
  | [] => .ok (.map [])
  | d :: _ => data.foldl (mergeStep override) (.ok (emptyLike d))

mutual
/-- Paths on which `_extend` raises: at some position reached by the
recursion, the left value is a dict and the right value is neither a dict
nor `None`. Mirrors the recursion structure of `extend`. -/
def hasConflict : Value → Value → Bool
  | .map les, .map res => conflictEntries les res
  | .map _, .null => false
  | .map _, _ => true
  | _, _ => false

/-- Conflict search through the shared keys of the dict/dict branch. -/
def conflictEntries (les : Assoc) : Assoc → Bool
  | [] => false
  | (k, rv) :: rest =>
    (match assocGet les k with
     | some mv => hasConflict mv rv
     | none => false) || conflictEntries les rest
end

mutual
/-- Paths on which `_replace` raises: at some position reached by the
recursion, the right value is a dict with at least one entry while the
left value is not a dict. Mirrors the recursion structure of `replace`. -/
def replaceConflict : Value → Value → Bool
  | left, .map res =>
    match left with
    | .map les => replaceConflictEntries les res
    | _ => !res.isEmpty
  | _, _ => false

/-- Conflict search through the shared keys of `_replace`'s dict branch. -/
def replaceConflictEntries (les : Assoc) : Assoc → Bool
  | [] => false
  | (k, rv) :: rest =>
    (match assocGet les k with
     | some mv => replaceConflict mv rv
     | none => false) || replaceConflictEntries les rest
end

/-- Distinctness of the keys of one dict entry list. -/
def keysNodup : Assoc → Bool
  | [] => true
  | (k, _) :: rest => !(containsKey rest k) && keysNodup rest

mutual
/-- Well-formedness of a value tree: every dict in it has distinct keys.
Any tree obtained from actual Python dicts satisfies this. -/
def wf : Value → Bool
  | .map es => keysNodup es && wfEntries es
  | _ => true

/-- Well-formedness of every value of a dict entry list. -/
def wfEntries : Assoc → Bool
  | [] => true
  | (_, v) :: rest => wf v && wfEntries rest
end

/-- Modelled from the spec: the accumulator the spec's Merge Driver
section prescribes — an empty `Mapping` if the first item is a mapping, an
empty `Sequence` if a sequence, and an empty `Mapping` for any other
first-item shape. Stated only to compare against the code's
`data[0].__class__()` behaviour, embedded as `emptyLike`. -/
def emptyVariantSpec : Value → Value
  | .map _ => .map []
  | .seq t _ => .seq t []
  | _ => .map []

/-- Modelled from the spec: `mergedata` as the spec's Merge Driver section
words it, differing from the code only in the starting accumulator. -/
def mergedataSpec (data : List Value) (override : Bool := false) : Except MergeErr Value :=
  match data with
  | [] => .ok (.map [])
  | d :: _ => data.foldl (mergeStep override) (.ok (emptyVariantSpec d))

/-! Helper lemmas about the embedded operations. -/

theorem isOk_false_iff_error (x : Except MergeErr Value) :
    x.isOk = false ↔ ∃ e, x = .error e := by
  cases x <;> simp [Except.isOk, Except.toBool]

theorem isOk_map_value (x : Except MergeErr Assoc) :
    (Value.map <$> x).isOk = x.isOk := by
  cases x <;> rfl

theorem containsKey_append (A B : Assoc) (k : String) :
    containsKey (A ++ B) k = (containsKey A k || containsKey B k) := by
  simp [containsKey]

theorem containsKey_of_mem {m : Assoc} {k : String} {v : Value} (h : (k, v) ∈ m) :
    containsKey m k = true := by
  simp only [containsKey, List.any_eq_true]
  exact ⟨(k, v), h, by simp⟩

theorem assocGet_none_iff (m : Assoc) (k : String) :
    assocGet m k = none ↔ containsKey m k = false := by
  induction m with
  | nil => simp [assocGet, containsKey]
  | cons p rest ih =>
      obtain ⟨l, v⟩ := p
      by_cases hl : l = k
      · subst hl; simp [assocGet, containsKey]
      · simp [assocGet, containsKey, hl, ih]

theorem assocGet_append_left {A : Assoc} (B : Assoc) {k : String} {v : Value}
    (h : assocGet A k = some v) : assocGet (A ++ B) k = some v := by
  induction A with
  | nil => simp [assocGet] at h
  | cons p rest ih =>
      obtain ⟨l, w⟩ := p
      by_cases hl : l = k
      · subst hl; simp [assocGet] at h ⊢; exact h
      · simp [assocGet, hl] at h ⊢; exact ih h

theorem assocGet_append_right {A : Assoc} (B : Assoc) {k : String}
    (h : containsKey A k = false) : assocGet (A ++ B) k = assocGet B k := by
  induction A with
  | nil => simp
  | cons p rest ih =>
      obtain ⟨l, w⟩ := p
      simp only [containsKey, List.any_cons, Bool.or_eq_false_iff] at h
      have hl : (l == k) = false := h.1
      simp only [List.cons_append, assocGet, hl, Bool.false_eq_true, if_false]
      exact ih h.2

theorem extendEntries_allNew {res : Assoc} : ∀ {orig : Assoc} (m : Assoc) (d : Bool),
    (∀ kv ∈ res, assocGet orig kv.1 = none) →
    extendEntries orig m res d = .ok (m ++ res) := by
  induction res with
  | nil => intro orig m d _; simp [extendEntries]
  | cons kv rest ih =>
      intro orig m d h
      obtain ⟨k, rv⟩ := kv
      have hk : assocGet orig k = none := h (k, rv) (List.mem_cons_self _ _)
      simp only [extendEntries, hk]
      rw [ih (m ++ [(k, rv)]) d (fun p hp => h p (List.mem_cons_of_mem _ hp))]
      simp

theorem replaceEntries_allNew {res : Assoc} : ∀ {orig : Assoc} (m : Assoc),
    (∀ kv ∈ res, assocGet orig kv.1 = none) →
    replaceEntries orig m res = .ok (m ++ res) := by
  induction res with
  | nil => intro orig m _; simp [replaceEntries]
  | cons kv rest ih =>
      intro orig m h
      obtain ⟨k, rv⟩ := kv
      have hk : assocGet orig k = none := h (k, rv) (List.mem_cons_self _ _)
      simp only [replaceEntries, hk]
      rw [ih (m ++ [(k, rv)]) (fun p hp => h p (List.mem_cons_of_mem _ hp))]
      simp

theorem mergeStep_skip (ov : Bool) (acc : Except MergeErr Value) (v : Value)
    (h : v.isTruthy = false) : mergeStep ov acc v = acc := by
  cases acc <;> simp [mergeStep, h]

theorem mergeStep_apply (ov : Bool) (l v : Value) (h : v.isTruthy = true) :
    mergeStep ov (.ok l) v = if ov then replace l v else extend l v true := by
  simp [mergeStep, h]

theorem emptyLike_of_falsy (v : Value) (h : v.isTruthy = false) : emptyLike v = v := by
  cases v with
  | null => rfl
  | bool b => simp [Value.isTruthy] at h; simp [emptyLike, h]
  | int n => simp [Value.isTruthy] at h; simp [emptyLike, h]
  | str s => simp [Value.isTruthy, String.isEmpty_iff] at h; simp [emptyLike, h]
  | seq t xs => simp [Value.isTruthy] at h; simp [emptyLike, h]
  | map es => simp [Value.isTruthy] at h; simp [emptyLike, h]

mutual
theorem extend_isOk : ∀ (l r : Value) (d : Bool), (extend l r d).isOk = !hasConflict l r
  | .null, r, d => by cases r <;> rfl
  | .bool b, r, d => by cases r <;> rfl
  | .int n, r, d => by cases r <;> rfl
  | .str s, r, d => by cases r <;> rfl
  | .seq t xs, r, d => by cases r <;> rfl
  | .map les, r, d => by
      cases r with
      | map res =>
          simp only [extend, hasConflict, isOk_map_value]
          exact extendEntries_isOk les les res d
      | null => rfl
      | bool b => rfl
      | int n => rfl
      | str s => rfl
      | seq u ys => rfl
termination_by _ r _ => sizeOf r

theorem extendEntries_isOk : ∀ (orig m res : Assoc) (d : Bool),
    (extendEntries orig m res d).isOk = !conflictEntries orig res
  | orig, m, [], d => rfl
  | orig, m, (k, rv) :: rest, d => by
      simp only [extendEntries, conflictEntries]
      cases hget : assocGet orig k with
      | none =>
          dsimp only
          simp only [Bool.false_or]
          exact extendEntries_isOk orig (m ++ [(k, rv)]) rest d
      | some mv =>
          dsimp only
          have hx := extend_isOk mv rv d
          cases hxe : extend mv rv d with
          | ok v =>
              rw [hxe] at hx
              have hc : hasConflict mv rv = false := by
                simpa [Except.isOk, Except.toBool] using hx.symm
              dsimp only
              simp only [hc, Bool.false_or]
              exact extendEntries_isOk orig (assocUpdate m k v) rest d
          | error e =>
              rw [hxe] at hx
              have hc : hasConflict mv rv = true := by
                simpa [Except.isOk, Except.toBool] using hx.symm
              simp [hc, Except.isOk, Except.toBool]
termination_by _ _ res _ => sizeOf res
end

mutual
theorem replace_err_spec : ∀ (l r : Value),
    ((replace l r).isOk = !replaceConflict l r)
    ∧ (replaceConflict l r = true → replace l r = .error .typeError)
  | l, .null => by simp [replace, replaceConflict, Except.isOk, Except.toBool]
  | l, .bool b => by simp [replace, replaceConflict, Except.isOk, Except.toBool]
  | l, .int n => by simp [replace, replaceConflict, Except.isOk, Except.toBool]
  | l, .str s => by simp [replace, replaceConflict, Except.isOk, Except.toBool]
  | l, .seq t ys => by simp [replace, replaceConflict, Except.isOk, Except.toBool]
  | l, .map res => by
      cases l with
      | map les =>
          refine ⟨?_, ?_⟩
          · simp only [replace, replaceConflict, isOk_map_value]
            exact (replaceEntries_err_spec les les res).1
          · intro hc
            simp only [replaceConflict] at hc
            simp only [replace]
            rw [(replaceEntries_err_spec les les res).2 hc]
            rfl
      | null => cases res <;> simp [replace, replaceConflict, Except.isOk, Except.toBool]
      | bool b => cases res <;> simp [replace, replaceConflict, Except.isOk, Except.toBool]
      | int n => cases res <;> simp [replace, replaceConflict, Except.isOk, Except.toBool]
      | str s => cases res <;> simp [replace, replaceConflict, Except.isOk, Except.toBool]
      | seq t xs => cases res <;> simp [replace, replaceConflict, Except.isOk, Except.toBool]
termination_by _ r => sizeOf r

theorem replaceEntries_err_spec : ∀ (orig m res : Assoc),
    ((replaceEntries orig m res).isOk = !replaceConflictEntries orig res)
    ∧ (replaceConflictEntries orig res = true → replaceEntries orig m res = .error .typeError)
  | orig, m, [] => by
      simp [replaceEntries, replaceConflictEntries, Except.isOk, Except.toBool]
  | orig, m, (k, rv) :: rest => by
      simp only [replaceEntries, replaceConflictEntries]
      cases hget : assocGet orig k with
      | none =>
          dsimp only
          simp only [Bool.false_or]
          exact replaceEntries_err_spec orig (m ++ [(k, rv)]) rest
      | some mv =>
          dsimp only
          have hx := replace_err_spec mv rv
          cases hxe : replace mv rv with
          | ok v =>
              rw [hxe] at hx
              have hc : replaceConflict mv rv = false := by
                simpa [Except.isOk, Except.toBool] using hx.1.symm
              dsimp only
              simp only [hc, Bool.false_or]
              exact replaceEntries_err_spec orig (assocUpdate m k v) rest
          | error e =>
              rw [hxe] at hx
              have hc : replaceConflict mv rv = true := by
                simpa [Except.isOk, Except.toBool] using hx.1.symm
              have he : e = .typeError := by
                have h2 := hx.2 hc
                injection h2
              dsimp only
              refine ⟨?_, ?_⟩
              · simp [hc, Except.isOk, Except.toBool]
              · intro _
                rw [he]
termination_by _ _ res => sizeOf res
end

theorem seqExtendOne_false (xs : List Value) (v : Value) :
    seqExtendOne xs v false = xs ++ [v] := by
  simp [seqExtendOne]

theorem seqExtendAll_false : ∀ (ys xs : List Value), seqExtendAll xs ys false = xs ++ ys
  | [], xs => by simp [seqExtendAll]
  | v :: vs, xs => by
      rw [seqExtendAll, seqExtendOne_false, seqExtendAll_false vs (xs ++ [v])]
      simp

theorem seqExtendAll_dedup : ∀ (ys xs : List Value), ∃ zs,
    seqExtendAll xs ys true = xs ++ zs
    ∧ zs.Sublist ys
    ∧ (∀ v ∈ zs, v ∉ xs)
    ∧ zs.Nodup
    ∧ (∀ v ∈ ys, v ∈ xs ∨ v ∈ zs)
  | [], xs => ⟨[], by simp [seqExtendAll]⟩
  | y :: ys, xs => by
      by_cases hy : y ∈ xs
      · obtain ⟨zs, h1, h2, h3, h4, h5⟩ := seqExtendAll_dedup ys xs
        refine ⟨zs, ?_, h2.cons _, h3, h4, ?_⟩
        · rw [seqExtendAll, seqExtendOne]
          have hcont : xs.contains y = true := List.elem_iff.mpr hy
          simp only [hcont, Bool.and_self, if_true]
          exact h1
        · intro v hv
          rcases List.mem_cons.mp hv with rfl | hv2
          · exact Or.inl hy
          · exact h5 v hv2
      · obtain ⟨zs, h1, h2, h3, h4, h5⟩ := seqExtendAll_dedup ys (xs ++ [y])
        refine ⟨y :: zs, ?_, List.Sublist.cons₂ y h2, ?_, ?_, ?_⟩
        · rw [seqExtendAll, seqExtendOne]
          have hcont : xs.contains y = false := by
            rw [← Bool.not_eq_true]
            intro hc
            exact hy (List.elem_iff.mp hc)
          simp only [hcont, Bool.and_false, Bool.false_eq_true, if_false]
          rw [h1, List.append_assoc]
          rfl
        · intro v hv
          rcases List.mem_cons.mp hv with rfl | hv2
          · exact hy
          · intro hvx
            exact h3 v hv2 (List.mem_append_left _ hvx)
        · rw [List.nodup_cons]
          refine ⟨?_, h4⟩
          intro hyz
          exact h3 y hyz (List.mem_append_right _ (List.mem_singleton_self y))
        · intro v hv
          rcases List.mem_cons.mp hv with rfl | hv2
          · exact Or.inr (List.mem_cons_self _ _)
          · rcases h5 v hv2 with hvx | hvz
            · rcases List.mem_append.mp hvx with h | h
              · exact Or.inl h
              · rcases List.mem_singleton.mp h with rfl
                exact Or.inr (List.mem_cons_self _ _)
            · exact Or.inr (List.mem_cons_of_mem _ hvz)

theorem wfEntries_mem : ∀ (es : Assoc) {k : String} {v : Value},
    wfEntries es = true → (k, v) ∈ es → wf v = true
  | [], _, _, _, hm => by simp at hm
  | (k0, v0) :: rest, k, v, h, hm => by
      simp only [wfEntries, Bool.and_eq_true] at h
      rcases List.mem_cons.mp hm with heq | hmem
      · cases heq
        exact h.1
      · exact wfEntries_mem rest h.2 hmem

theorem assocGet_mem_nodup : ∀ (m : Assoc) {k : String} {v : Value},
    keysNodup m = true → (k, v) ∈ m → assocGet m k = some v
  | (k0, v0) :: rest, k, v, hnd, hm => by
      simp only [keysNodup, Bool.and_eq_true] at hnd
      rcases List.mem_cons.mp hm with heq | hmem
      · cases heq
        simp [assocGet]
      · have hne : (k0 == k) = false := by
          rw [beq_eq_false_iff_ne]
          intro hk
          subst hk
          rw [containsKey_of_mem hmem] at hnd
          simpa using hnd.1
        simp only [assocGet, hne, Bool.false_eq_true, if_false]
        exact assocGet_mem_nodup rest hnd.2 hmem
  | [], _, _, _, hm => by simp at hm

theorem map_update_not_contains : ∀ (m : Assoc) (k : String) (v : Value),
    containsKey m k = false →
    m.map (fun p => if p.1 == k then (k, v) else p) = m
  | [], _, _, _ => rfl
  | (k0, v0) :: rest, k, v, h => by
      simp only [containsKey, List.any_cons, Bool.or_eq_false_iff] at h
      simp only [List.map_cons]
      rw [map_update_not_contains rest k v h.2]
      simp [h.1]

theorem assocUpdate_self : ∀ (m : Assoc) {k : String} {v : Value},
    keysNodup m = true → (k, v) ∈ m → assocUpdate m k v = m
  | (k0, v0) :: rest, k, v, hnd, hm => by
      simp only [keysNodup, Bool.and_eq_true] at hnd
      have hc : containsKey ((k0, v0) :: rest) k = true := containsKey_of_mem hm
      simp only [assocUpdate, hc, if_true]
      rcases List.mem_cons.mp hm with heq | hmem
      · cases heq
        have hrest : containsKey rest k0 = false := by
          simpa using hnd.1
        simp only [List.map_cons]
        rw [map_update_not_contains rest k0 v0 hrest]
        simp
      · have hne : (k0 == k) = false := by
          rw [beq_eq_false_iff_ne]
          intro hk
          subst hk
          rw [containsKey_of_mem hmem] at hnd
          simpa using hnd.1
        have ih := assocUpdate_self rest hnd.2 hmem
        simp only [assocUpdate, containsKey_of_mem hmem, if_true] at ih
        simp only [List.map_cons, hne, Bool.false_eq_true, if_false]
        rw [ih]
  | [], _, _, _, hm => by simp at hm

mutual
theorem replace_self : ∀ (v : Value), wf v = true → replace v v = .ok v
  | .null, _ => rfl
  | .bool b, _ => rfl
  | .int n, _ => rfl
  | .str s, _ => rfl
  | .seq t xs, _ => rfl
  | .map es, h => by
      simp only [wf, Bool.and_eq_true] at h
      simp only [replace]
      rw [replaceEntries_self es es h.1 h.2 (fun kv hkv => hkv)]
      rfl
termination_by v _ => sizeOf v

theorem replaceEntries_self : ∀ (es res : Assoc),
    keysNodup es = true → wfEntries es = true → (∀ kv ∈ res, kv ∈ es) →
    replaceEntries es es res = .ok es
  | es, [], _, _, _ => rfl
  | es, (k, rv) :: rest, hnd, hwf, hsub => by
      have hmem : (k, rv) ∈ es := hsub _ (List.mem_cons_self _ _)
      have hget : assocGet es k = some rv := assocGet_mem_nodup es hnd hmem
      simp only [replaceEntries, hget]
      rw [replace_self rv (wfEntries_mem es hwf hmem)]
      dsimp only
      rw [assocUpdate_self es hnd hmem]
      exact replaceEntries_self es rest hnd hwf
        (fun kv hkv => hsub kv (List.mem_cons_of_mem _ hkv))
termination_by _ res _ _ _ => sizeOf res
end

theorem replace_emptyLike : ∀ (v : Value), replace (emptyLike v) v = .ok v
  | .null => rfl
  | .bool b => rfl
  | .int n => rfl
  | .str s => rfl
  | .seq t xs => rfl
  | .map es => by
      simp only [emptyLike, replace]
      rw [@replaceEntries_allNew es [] [] (fun kv _ => rfl)]
      simp

theorem mergeStep_map_disjoint (ov : Bool) (A B : Assoc)
    (h : ∀ kv ∈ B, assocGet A kv.1 = none) :
    mergeStep ov (.ok (.map A)) (.map B) = .ok (.map (A ++ B)) := by
  by_cases hB : B = []
  · subst hB
    rw [mergeStep_skip ov (.ok (.map A)) (.map []) rfl]
    simp
  · have ht : (Value.map B).isTruthy = true := by
      cases B with
      | nil => exact absurd rfl hB
      | cons p r => rfl
    cases ov
    · have e1 : mergeStep false (.ok (.map A)) (.map B) = extend (.map A) (.map B) true := by
        simp [mergeStep, ht]
      rw [e1]
      simp only [extend]
      rw [@extendEntries_allNew B A A true h]
      rfl
    · have e1 : mergeStep true (.ok (.map A)) (.map B) = replace (.map A) (.map B) := by
        simp [mergeStep, ht]
      rw [e1]
      simp only [replace]
      rw [@replaceEntries_allNew B A A h]
      rfl

/-! Theorems settling the claims. -/

/-- C1: the Extend merge raises a merge type-mismatch error exactly when,
at some tree path reached by the recursion, the left (accumulated) value
is a dict and the right (incoming) value is neither a dict nor null
(captured by `hasConflict`); a dict left with a null right yields the left
dict unchanged; and an erroring call returns no merged value at all. -/
theorem extend_error_characterization (l r : Value) (d : Bool) :
    ((∃ e, extend l r d = .error e) ↔ hasConflict l r = true)
    ∧ (∀ les, extend (.map les) .null d = .ok (.map les))
    ∧ (∀ e, extend l r d = .error e → ∀ v, extend l r d ≠ .ok v) := by
  refine ⟨⟨?_, ?_⟩, fun les => rfl, ?_⟩
  · rintro ⟨e, he⟩
    have hx := extend_isOk l r d
    rw [he] at hx
    simpa [Except.isOk, Except.toBool] using hx.symm
  · intro hc
    have hx := extend_isOk l r d
    rw [hc] at hx
    exact (isOk_false_iff_error _).mp (by simpa using hx)
  · intro e he v hv
    rw [he] at hv
    exact Except.noConfusion hv

/-- C1 witness: a concrete conflicting pair (dict left, scalar right). -/
theorem extend_error_characterization_witness :
    ∃ e, extend (.map [("a", .int 1)]) (.int 5) false = .error e :=
  (extend_error_characterization (.map [("a", .int 1)]) (.int 5) false).1.mpr (by decide)

/-- C2 counterexample: Replace does raise. With a scalar left and a
nonempty dict right the Python `key in left` raises a `TypeError`, so
`_replace(5, dict(a=1))` errors instead of resolving to right winning. -/
theorem replace_scalar_left_raises :
    replace (.int 5) (.map [("a", .int 1)]) = .error .typeError
    ∧ ¬∃ v, replace (.int 5) (.map [("a", .int 1)]) = .ok v := by
  refine ⟨rfl, ?_⟩
  rintro ⟨v, hv⟩
  rw [show replace (.int 5) (.map [("a", .int 1)]) = Except.error .typeError from rfl] at hv
  exact Except.noConfusion hv

/-- C2 amended: Replace never raises the merge type-mismatch `ValueError`,
and a sequence or scalar right always succeeds with right winning; but
when at some path reached by the recursion the right value is a dict with
at least one entry while the left value is not a dict, the duck-typed
`key in left` / item assignment raises a Python `TypeError`; the
predicate `replaceConflict` characterizes exactly when `_replace` fails. -/
theorem replace_error_characterization (l r : Value) :
    ((∃ v, replace l r = .ok v) ↔ replaceConflict l r = false)
    ∧ (∀ e, replace l r = .error e → e = .typeError)
    ∧ (∀ lv rv, replace l r ≠ .error (.typeMismatch lv rv))
    ∧ (r.isSeq = true ∨ r.isScalar = true → replace l r = .ok r) := by
  have hspec := replace_err_spec l r
  have herr : ∀ e, replace l r = .error e → e = .typeError := by
    intro e he
    have h1 := hspec.1
    rw [he] at h1
    have hc : replaceConflict l r = true := by
      simpa [Except.isOk, Except.toBool] using h1.symm
    have h2 := hspec.2 hc
    rw [he] at h2
    exact Except.error.inj h2
  refine ⟨⟨?_, ?_⟩, herr, ?_, ?_⟩
  · rintro ⟨v, hv⟩
    have h1 := hspec.1
    rw [hv] at h1
    simpa [Except.isOk, Except.toBool] using h1.symm
  · intro hc
    cases hrep : replace l r with
    | ok v => exact ⟨v, rfl⟩
    | error e =>
        have h1 := hspec.1
        rw [hrep, hc] at h1
        simp [Except.isOk, Except.toBool] at h1
  · intro lv rv hne
    exact MergeErr.noConfusion (herr _ hne)
  · intro hr
    cases r with
    | seq t ys => rfl
    | null => rfl
    | bool b => rfl
    | int n => rfl
    | str s => rfl
    | map es => simp [Value.isSeq, Value.isScalar] at hr

/-- C2 witness: a dict left with a sequence right succeeds, right wins. -/
theorem replace_error_characterization_witness :
    replace (.map [("a", .int 1)]) (.seq false [.int 2]) = .ok (.seq false [.int 2]) :=
  (replace_error_characterization (.map [("a", .int 1)]) (.seq false [.int 2])).2.2.2
    (Or.inl (by decide))

/-- C3 counterexample: for a scalar first item the accumulator is not an
empty dict but `data[0].__class__()`, the zero value of the scalar's own
class: `mergedata(5)` returns `5`, while starting from the spec-worded
empty-dict accumulator would raise the dict/non-dict mismatch error. -/
theorem mergedata_scalar_accumulator_counterexample :
    emptyLike (.int 5) ≠ .map []
    ∧ mergedata [.int 5] false = .ok (.int 5)
    ∧ mergedataSpec [.int 5] false = .error (.typeMismatch (.map []) (.int 5)) :=
  ⟨by decide, rfl, rfl⟩

/-- C3 amended: `mergedata` with no arguments returns an empty dict; with
arguments the fold starts from `data[0].__class__()`: an empty dict for a
dict first item, an empty sequence (list or tuple, preserving which) for a
sequence first item, and — unlike the claim — for a scalar first item the
falsy zero value of the scalar's own class (null, false, 0, or the empty
string), not an empty dict. -/
theorem mergedata_initial_accumulator (ov : Bool) :
    mergedata [] ov = .ok (.map [])
    ∧ (∀ (d : Value) (rest : List Value),
        mergedata (d :: rest) ov = (d :: rest).foldl (mergeStep ov) (.ok (emptyLike d)))
    ∧ (∀ es, emptyLike (.map es) = .map [])
    ∧ (∀ t xs, emptyLike (.seq t xs) = .seq t [])
    ∧ emptyLike .null = .null
    ∧ (∀ b, emptyLike (.bool b) = .bool false)
    ∧ (∀ n, emptyLike (.int n) = .int 0)
    ∧ (∀ s, emptyLike (.str s) = .str "") :=
  ⟨rfl, fun _ _ => rfl, fun _ => rfl, fun _ _ => rfl, rfl,
   fun _ => rfl, fun _ => rfl, fun _ => rfl⟩

/-- C4: Extend on a sequence left concatenates: without deduplication the
result is left followed by all of right; with deduplication the appended
part `zs` is the subsequence of right's elements not already present
(first-seen order preserved, nothing else lost); a non-sequence right is
appended as one element subject to the same check; and the spec's dedup
example holds. -/
theorem extend_sequence_concat_dedup :
    (∀ (t u : Bool) (xs ys : List Value),
        extend (.seq t xs) (.seq u ys) false = .ok (.seq t (xs ++ ys)))
    ∧ (∀ (t u : Bool) (xs ys : List Value), ∃ zs,
        extend (.seq t xs) (.seq u ys) true = .ok (.seq t (xs ++ zs))
        ∧ zs.Sublist ys ∧ (∀ v ∈ zs, v ∉ xs) ∧ zs.Nodup
        ∧ (∀ v ∈ ys, v ∈ xs ∨ v ∈ zs))
    ∧ (∀ (t : Bool) (xs : List Value) (r : Value) (d : Bool), r.isSeq = false →
        extend (.seq t xs) r d
          = .ok (.seq t (if d && xs.contains r then xs else xs ++ [r])))
    ∧ mergedata [.map [("a", .seq false [.int 1, .int 2])],
        .map [("a", .seq false [.int 2, .int 3])]] false
        = .ok (.map [("a", .seq false [.int 1, .int 2, .int 3])]) := by
  refine ⟨?_, ?_, ?_, rfl⟩
  · intro t u xs ys
    show Except.ok (Value.seq t (seqExtendAll xs ys false)) = _
    rw [seqExtendAll_false]
  · intro t u xs ys
    obtain ⟨zs, h1, h2, h3, h4, h5⟩ := seqExtendAll_dedup ys xs
    refine ⟨zs, ?_, h2, h3, h4, h5⟩
    show Except.ok (Value.seq t (seqExtendAll xs ys true)) = _
    rw [h1]
  · intro t xs r d hr
    cases r with
    | seq u ys => simp [Value.isSeq] at hr
    | null => rfl
    | bool b => rfl
    | int n => rfl
    | str s => rfl
    | map es => rfl

/-- C4 witness: appending a scalar right to a sequence left under dedup. -/
theorem extend_sequence_concat_dedup_witness :
    extend (.seq false [.int 1]) (.int 7) true = .ok (.seq false [.int 1, .int 7]) := by
  have h := extend_sequence_concat_dedup.2.2.1 false [.int 1] (.int 7) true (by decide)
  rw [h]
  decide

/-- C5: the Replace merge with a sequence right returns that sequence in
its entirety regardless of left (whole-sequence replacement, no merge, no
dedup); a scalar or null right is returned verbatim; the two override
examples of the spec hold. -/
theorem replace_sequence_scalar_overwrite :
    (∀ (l : Value) (t : Bool) (ys : List Value), replace l (.seq t ys) = .ok (.seq t ys))
    ∧ (∀ (l r : Value), r.isScalar = true → replace l r = .ok r)
    ∧ mergedata [.map [("a", .seq false [.int 1, .int 2])],
        .map [("a", .seq false [.int 2, .int 3])]] true
        = .ok (.map [("a", .seq false [.int 2, .int 3])])
    ∧ mergedata [.map [("a", .map [("x", .int 1)])], .map [("a", .int 5)]] true
        = .ok (.map [("a", .int 5)]) := by
  refine ⟨fun l t ys => rfl, ?_, rfl, rfl⟩
  intro l r hr
  cases r with
  | null => rfl
  | bool b => rfl
  | int n => rfl
  | str s => rfl
  | seq t ys => simp [Value.isScalar] at hr
  | map es => simp [Value.isScalar] at hr

/-- C5 witness: a scalar right overwrites a sequence left. -/
theorem replace_sequence_scalar_overwrite_witness :
    replace (.seq false [.int 1]) (.int 9) = .ok (.int 9) :=
  replace_sequence_scalar_overwrite.2.1 (.seq false [.int 1]) (.int 9) (by decide)

/-- C6: for dicts with disjoint key sets, `mergedata` under either policy
returns exactly the key-wise union (left entries then right entries); the
union's key set is the union of the operand key sets and each key keeps
its sole owner's value. -/
theorem mergedata_disjoint_union (A B : Assoc) (ov : Bool)
    (h : ∀ kv ∈ B, assocGet A kv.1 = none) :
    mergedata [.map A, .map B] ov = .ok (.map (A ++ B))
    ∧ (∀ k, containsKey (A ++ B) k = (containsKey A k || containsKey B k))
    ∧ (∀ k v, assocGet A k = some v → assocGet (A ++ B) k = some v)
    ∧ (∀ k, containsKey A k = false → assocGet (A ++ B) k = assocGet B k) := by
  refine ⟨?_, containsKey_append A B, fun k v hv => assocGet_append_left B hv,
    fun k hk => assocGet_append_right B hk⟩
  show mergeStep ov (mergeStep ov (.ok (.map [])) (.map A)) (.map B) = .ok (.map (A ++ B))
  have e1 : mergeStep ov (.ok (.map [])) (.map A) = .ok (.map A) := by
    have e0 := mergeStep_map_disjoint ov [] A (fun kv _ => rfl)
    simpa using e0
  rw [e1, mergeStep_map_disjoint ov A B h]

/-- C6 witness: two concrete singleton dicts with distinct keys. -/
theorem mergedata_disjoint_union_witness :
    mergedata [.map [("a", .int 1)], .map [("b", .int 2)]] true
      = .ok (.map [("a", .int 1), ("b", .int 2)]) :=
  (mergedata_disjoint_union [("a", .int 1)] [("b", .int 2)] true (by decide)).1

/-- C7: the Replace merge is idempotent on self: for any well-formed tree
(every dict in it has distinct keys, as every tree built from Python
dicts does), `mergedata(A, A, override=True)` returns `A` itself. -/
theorem mergedata_replace_self_idempotent (A : Value) (h : wf A = true) :
    mergedata [A, A] true = .ok A := by
  show mergeStep true (mergeStep true (.ok (emptyLike A)) A) A = .ok A
  cases ht : A.isTruthy with
  | false =>
      rw [mergeStep_skip _ _ _ ht, mergeStep_skip _ _ _ ht, emptyLike_of_falsy A ht]
  | true =>
      have e1 : mergeStep true (.ok (emptyLike A)) A = replace (emptyLike A) A := by
        simp [mergeStep, ht]
      rw [e1, replace_emptyLike A]
      have e2 : mergeStep true (.ok A) A = replace A A := by
        simp [mergeStep, ht]
      rw [e2, replace_self A h]

/-- C7 witness: a concrete nested tree. -/
theorem mergedata_replace_self_idempotent_witness :
    mergedata [.map [("a", .seq false [.int 1])], .map [("a", .seq false [.int 1])]] true
      = .ok (.map [("a", .seq false [.int 1])]) :=
  mergedata_replace_self_idempotent (.map [("a", .seq false [.int 1])]) (by decide)

/-- C8: `mergedata` folds its items left to right: every falsy item (the
first included) leaves the accumulator unchanged, every truthy item is
merged via `_replace` or `_extend(·, ·, deduplicate=True)` according to
`override`, and the spec's empty-input example holds under both policies. -/
theorem mergedata_fold_skips_falsy :
    (∀ (ov : Bool) (acc : Except MergeErr Value) (v : Value),
        v.isTruthy = false → mergeStep ov acc v = acc)
    ∧ (∀ (ov : Bool) (l v : Value), v.isTruthy = true →
        mergeStep ov (.ok l) v = if ov then replace l v else extend l v true)
    ∧ (∀ (d : Value) (rest : List Value) (ov : Bool),
        mergedata (d :: rest) ov = (d :: rest).foldl (mergeStep ov) (.ok (emptyLike d)))
    ∧ (∀ ov : Bool, mergedata [.map [], .map [("a", .int 1)], .map []] ov
        = .ok (.map [("a", .int 1)])) := by
  refine ⟨mergeStep_skip, mergeStep_apply, fun d rest ov => rfl, fun ov => ?_⟩
  cases ov <;> rfl

/-- C8 witness: a falsy item is skipped by the fold step. -/
theorem mergedata_fold_skips_falsy_witness :
    mergeStep true (.ok (.int 3)) (.map []) = .ok (.int 3) :=
  mergedata_fold_skips_falsy.1 true (.ok (.int 3)) (.map []) (by decide)

/-- C9: both mergers and the driver are total functions of their inputs:
the embedded `extend`, `replace` and `mergedata` were accepted by the
termination checker, the formal counterpart of the claim that the merge
recursion is well-founded on acyclic finite trees; each application has a
result. -/
theorem merge_terminates :
    (∀ (l r : Value) (d : Bool), ∃ y, extend l r d = y)
    ∧ (∀ (l r : Value), ∃ y, replace l r = y)
    ∧ (∀ (data : List Value) (ov : Bool), ∃ y, mergedata data ov = y) :=
  ⟨fun l r d => ⟨extend l r d, rfl⟩, fun l r => ⟨replace l r, rfl⟩,
   fun data ov => ⟨mergedata data ov, rfl⟩⟩

/-- C10: a null right under Extend is a no-op only for a dict left: a
sequence left appends null as an element (subject to the dedup check) and
a scalar left is overwritten by null (right wins at leaves). -/
theorem extend_null_right_behavior :
    (∀ (t : Bool) (xs : List Value) (d : Bool),
        extend (.seq t xs) .null d
          = .ok (.seq t (if d && xs.contains .null then xs else xs ++ [.null])))
    ∧ (∀ (l : Value) (d : Bool), l.isScalar = true → extend l .null d = .ok .null)
    ∧ (∀ (les : Assoc) (d : Bool), extend (.map les) .null d = .ok (.map les)) := by
  refine ⟨fun t xs d => rfl, ?_, fun les d => rfl⟩
  intro l d hl
  cases l with
  | null => rfl
  | bool b => rfl
  | int n => rfl
  | str s => rfl
  | seq t xs => simp [Value.isScalar] at hl
  | map es => simp [Value.isScalar] at hl

/-- C10 witness: null overwrites a scalar left under Extend. -/
theorem extend_null_right_behavior_witness :
    extend (.int 7) .null true = .ok .null :=
  extend_null_right_behavior.2.1 (.int 7) true (by decide)
